import Mathlib

/-!
Shallow embedding of the fleet-data ingestion pipeline
(`src/pipeline/processors.py`, `validators.py`, `writers.py`, `pipeline.py`)
together with proofs about its normalization, validation and partitioning
behaviour.  Tables are modelled column-wise as lists of named cell columns;
cells are an inductive `Val` (null / string / rational number / date code).
-/

namespace Pipeline

/-- Characters kept by `re.sub(r'[^\w_]', '', ...)`: the `\w` class
(ASCII letters, digits, underscore). -/
def isWord (c : Char) : Bool := c.isAlphanum || c == '_'

/-- `re.sub(r'\s+', '_', s)`: every maximal whitespace run becomes one
underscore.  The flag records whether the previous character was whitespace,
so that only the first character of a run emits the underscore. -/
def subWsAux : Bool → List Char → List Char
  | _, [] => []
  | prev, c :: t =>
    if c.isWhitespace then
      if prev then subWsAux true t else '_' :: subWsAux true t
    else c :: subWsAux false t

def subWs (l : List Char) : List Char := subWsAux false l

/-- `re.sub(r'_+', '_', s)`: every maximal underscore run becomes one
underscore. -/
def collapseUAux : Bool → List Char → List Char
  | _, [] => []
  | prev, c :: t =>
    if c == '_' then
      if prev then collapseUAux true t else '_' :: collapseUAux true t
    else c :: collapseUAux false t

def collapseU (l : List Char) : List Char := collapseUAux false l

/-- Drop the trailing characters satisfying `p` (the right half of
Python `str.strip`). -/
def dropTrail (p : Char → Bool) : List Char → List Char
  | [] => []
  | c :: t =>
    let r := dropTrail p t
    if r = [] && p c then [] else c :: r

/-- Python `str.strip(chars)`: drop leading and trailing characters
satisfying `p`. -/
def stripAll (p : Char → Bool) (l : List Char) : List Char :=
  dropTrail p (l.dropWhile p)

/-- One column name cleaned as in `DataProcessor.clean_column_names`:
`str(col).lower().strip()`, whitespace runs to `_`, non-word characters
removed, underscore runs collapsed, surrounding underscores stripped. -/
def cleanName (l : List Char) : List Char :=
  stripAll (· == '_')
    (collapseU ((subWs (stripAll Char.isWhitespace (l.map Char.toLower))).filter isWord))

def cleanNameStr (s : String) : String := ⟨cleanName s.data⟩

/-- `DataProcessor.clean_column_names` applied to the list of column names:
each name is cleaned, an empty result is replaced by `col_<index>` where the
index is the number of names already processed. -/
def clean_column_names (names : List String) : List String :=
  names.foldl
    (fun acc col =>
      let c := cleanNameStr col
      acc ++ [if c ≠ "" then c else "col_" ++ toString acc.length])
    []

/-! ### Data model: cells and column-oriented tables -/

/-- A cell of a decoded table: missing value, text, number, or a date code. -/
inductive Val
  | null
  | str (s : String)
  | num (q : ℚ)
  | date (d : Nat)
deriving DecidableEq, Repr

def Val.isNull : Val → Bool
  | .null => true
  | _ => false

/-- A table, column-oriented: list of (column name, cells), all columns of
equal length. -/
abbrev DF := List (String × List Val)

def nrows (df : DF) : Nat := (df.head?.map (fun c => c.2.length)).getD 0

def colNames (df : DF) : List String := df.map (·.1)

def getCol? (df : DF) (name : String) : Option (List Val) :=
  (df.find? (fun c => c.1 = name)).map (·.2)

/-- Digit run to the natural number it denotes. -/
def digitsToNat (l : List Char) : Nat := l.foldl (fun a c => a * 10 + (c.toNat - 48)) 0

/-- Decimal numeral (digits, optional fraction) to a rational; exponent
forms are not modelled. -/
def parseNumAux (l : List Char) : Option ℚ :=
  let intp := l.takeWhile Char.isDigit
  match l.dropWhile Char.isDigit with
  | [] => if intp = [] then none else some (digitsToNat intp)
  | '.' :: frac =>
    if (intp ≠ [] || frac ≠ []) && frac.all Char.isDigit then
      some ((digitsToNat intp : ℚ) + (digitsToNat frac : ℚ) / ((10 : ℚ) ^ frac.length))
    else none
  | _ => none

/-- The numeric parse performed cell-wise by `pd.to_numeric` on a string. -/
def parseNum? (s : String) : Option ℚ :=
  match s.data with
  | '-' :: rest => (parseNumAux rest).map (fun q => -q)
  | '+' :: rest => parseNumAux rest
  | l => parseNumAux l

/-- Python `str.lower()`. -/
def toLowerStr (s : String) : String := ⟨s.data.map Char.toLower⟩

/-- Substring containment, as Python `pat in s`. -/
def containsSub (s pat : String) : Bool :=
  s.data.tails.any (fun t => pat.data.isPrefixOf t)

def startsWithStr (s pre : String) : Bool := pre.data.isPrefixOf s.data

def endsWithStr (s suf : String) : Bool := suf.data.isSuffixOf s.data

/-! ### DataProcessor steps (`src/pipeline/processors.py`) -/

/-- Row indices that survive `df.dropna(how='all')`: at least one non-null
cell in the row. -/
def keepRowIdxs (df : DF) : List Nat :=
  (List.range (nrows df)).filter (fun i => df.any (fun c => !(c.2.getD i .null).isNull))

/-- `DataProcessor.remove_empty_rows_columns`: drop all-null rows, then
all-null columns. -/
def remove_empty_rows_columns (df : DF) : DF :=
  (df.map (fun c => (c.1, (keepRowIdxs df).map (fun i => c.2.getD i .null)))).filter
    (fun c => c.2.any (fun v => !v.isNull))

/-- `DataProcessor.clean_column_names` on a whole table. -/
def clean_column_names_df (df : DF) : DF :=
  (clean_column_names (df.map (·.1))).zip (df.map (·.2))

/-- Column dtype is `object` when it holds at least one string cell. -/
def isObjCol (vs : List Val) : Bool :=
  vs.any (fun v => match v with | .str _ => true | _ => false)

def toNumericCell? : Val → Option Val
  | .null => some .null
  | .num q => some (.num q)
  | .str s => (parseNum? s).map Val.num
  | .date _ => none

/-- Whole-column `pd.to_numeric(..., errors='ignore')`: all-or-nothing, the
column is returned unchanged when any cell fails to parse. -/
def toNumericCol (vs : List Val) : List Val :=
  match vs.mapM toNumericCell? with
  | some vs' => vs'
  | none => vs

/-- ISO `YYYY-MM-DD` date to a code; other textual date formats accepted by
`pd.to_datetime` are out of scope. -/
def parseDate? (s : String) : Option Nat :=
  match s.data with
  | [y1, y2, y3, y4, '-', m1, m2, '-', d1, d2] =>
    if [y1, y2, y3, y4, m1, m2, d1, d2].all Char.isDigit then
      some (digitsToNat [y1, y2, y3, y4] * 10000 +
        digitsToNat [m1, m2] * 100 + digitsToNat [d1, d2])
    else none
  | _ => none

def toDatetimeCell? : Val → Option Val
  | .null => some .null
  | .str s => (parseDate? s).map Val.date
  | .date d => some (.date d)
  | .num _ => none

def toDatetimeCol (vs : List Val) : List Val :=
  match vs.mapM toDatetimeCell? with
  | some vs' => vs'
  | none => vs

/-- `DataProcessor.standardize_data_types`: skip metadata columns, then for
every `object` column try a whole-column numeric conversion, and failing a
change, a whole-column datetime conversion when the name mentions date/time. -/
def standardize_data_types (df : DF) : DF :=
  df.map (fun c =>
    if startsWithStr c.1 "source_" || endsWithStr c.1 "_timestamp" then c
    else if isObjCol c.2 then
      let numC := toNumericCol c.2
      if numC ≠ c.2 then (c.1, numC)
      else if containsSub (toLowerStr c.1) "date" || containsSub (toLowerStr c.1) "time" then
        (c.1, toDatetimeCol c.2)
      else c
    else c)

/-- Leftmost match of `re.search(r'fleet\s*(\d+)', s)` on an already
lowercased string: the captured digit run. -/
def fleetSearch : List Char → Option (List Char)
  | [] => none
  | c :: t =>
    (if "fleet".data.isPrefixOf (c :: t) then
      let d := (((c :: t).drop 5).dropWhile Char.isWhitespace).takeWhile Char.isDigit
      if d ≠ [] then some d else none
    else none) <|> fleetSearch t

/-- Match of `(\d{4})-(\d{4})` anchored at the start of `l`. -/
def busAt (l : List Char) : Option (List Char × List Char) :=
  let a := l.take 4
  let b := (l.drop 5).take 4
  if a.length = 4 && a.all Char.isDigit && l.getD 4 ' ' == '-' &&
      b.length = 4 && b.all Char.isDigit then
    some (a, b)
  else none

/-- Leftmost match of `re.search(r'(\d{4})-(\d{4})', s)`. -/
def busSearch : List Char → Option (List Char × List Char)
  | [] => none
  | c :: t => busAt (c :: t) <|> busSearch t

/-- `df[name] = scalar`: overwrite the column when present, else append it. -/
def setCol (df : DF) (name : String) (vs : List Val) : DF :=
  if df.any (fun c => c.1 = name) then
    df.map (fun c => if c.1 = name then (name, vs) else c)
  else df ++ [(name, vs)]

/-- `DataProcessor.extract_fleet_info`: set `fleet_number` from the
`fleet\s*(\d+)` search on the lowercased filename (null when absent), and
add `bus_range_start`/`bus_range_end` only when `(\d{4})-(\d{4})` matches. -/
def extract_fleet_info (df : DF) (source_file : String) : DF :=
  let n := nrows df
  let df1 :=
    match fleetSearch (toLowerStr source_file).data with
    | some d => setCol df "fleet_number" (List.replicate n (.str ⟨d⟩))
    | none => setCol df "fleet_number" (List.replicate n .null)
  match busSearch source_file.data with
  | some (a, b) =>
    setCol (setCol df1 "bus_range_start" (List.replicate n (.str ⟨a⟩)))
      "bus_range_end" (List.replicate n (.str ⟨b⟩))
  | none => df1

def Val.toStr : Val → Val
  | .null => .null
  | .str s => .str s
  | .num q => .str (toString q)
  | .date d => .str (toString d)

/-- Final loop of `DataProcessor.process_dataframe`: every `object` column is
cast to a string dtype. -/
def enforce_string (df : DF) : DF :=
  df.map (fun c => if isObjCol c.2 then (c.1, c.2.map Val.toStr) else c)

/-- `DataProcessor.process_dataframe`: the full normalization applied to one
decoded sheet. -/
def process_dataframe (df : DF) (source_file : String) : DF :=
  enforce_string
    (extract_fleet_info
      (standardize_data_types (clean_column_names_df (remove_empty_rows_columns df)))
      source_file)

/-! ### Validators (`src/pipeline/validators.py`) -/

/-- `required_columns` rule: `source_file` and `ingestion_timestamp` must be
present; the failure message embeds the returned list of missing columns. -/
def has_required_columns (df : DF) : Bool × List String :=
  let missing := ["source_file", "ingestion_timestamp"].filter
    (fun c => !(colNames df).contains c)
  if missing ≠ [] then (false, missing) else (true, [])

/-- The distinct diagnostic messages produced by the `valid_fleet_numbers`
rule, with the row counts they embed. -/
inductive FleetMsg
  | noColumn
  | noValues
  | invalidFormat (rows : Nat)
  | outOfRange (rows : Nat)
  | allValid
deriving DecidableEq, Repr

def violationCount : FleetMsg → Nat
  | .invalidFormat n => n
  | .outOfRange n => n
  | _ => 0

/-- Cell-wise `pd.to_numeric(..., errors='coerce')` on the non-null
`fleet_number` values. -/
def fleetCellNum? : Val → Option ℚ
  | .num q => some q
  | .str s => parseNum? s
  | _ => none

/-- `valid_fleet_numbers` rule: with a non-null `fleet_number` column, first
report a count of non-numeric values, else a count of values outside
`[1, 999]`. -/
def valid_fleet_numbers (df : DF) : Bool × FleetMsg :=
  match getCol? df "fleet_number" with
  | none => (true, .noColumn)
  | some col =>
    let fleet_numbers := col.filter (fun v => !v.isNull)
    if fleet_numbers = [] then (true, .noValues)
    else
      let nums := fleet_numbers.map fleetCellNum?
      let invalid := nums.countP (·.isNone)
      if invalid > 0 then (false, .invalidFormat invalid)
      else
        let out := nums.countP (fun q? =>
          match q? with
          | some q => decide (q < 1) || decide (q > 999)
          | none => false)
        if out > 0 then (false, .outOfRange out) else (true, .allValid)

/-- Outcome of one rule inside `DataValidator.validate_dataframe`: a raised
exception becomes a failed rule whose message starts with
`Rule execution failed`. -/
def runRule (f : DF → Except String (Bool × String)) (df : DF) : Bool × String :=
  match f df with
  | .ok r => r
  | .error e => (false, "Rule execution failed: " ++ e)

/-- `DataValidator.validate_dataframe`: run every registered rule in
registration order, record (name, passed, message) per rule, and conjoin all
outcomes into the overall `passed` flag. -/
def validate_dataframe (rules : List (String × (DF → Except String (Bool × String))))
    (df : DF) : List (String × Bool × String) × Bool :=
  match rules with
  | [] => ([], true)
  | (n, f) :: rest =>
    let r := runRule f df
    let tail := validate_dataframe rest df
    ((n, r.1, r.2) :: tail.1, r.1 && tail.2)

/-- `DataValidator.get_validation_summary` over the history of per-table
`passed` flags, as the key/value pairs of the returned dictionary. -/
def get_validation_summary (history : List Bool) : List (String × ℚ) :=
  if history = [] then [("total_validations", 0)]
  else
    let total := history.length
    let passed := history.countP id
    [("total_validations", (total : ℚ)), ("passed", (passed : ℚ)),
      ("failed", ((total - passed : Nat) : ℚ)),
      ("pass_rate", if total > 0 then (passed : ℚ) / (total : ℚ) else 0)]

/-! ### FleetDataProcessor summary statistics (`processors.py`) -/

/-- Column dtypes as relevant to `calculate_summary_stats`. -/
inductive ColType
  | num
  | obj
deriving DecidableEq, Repr

def metric_keywords : List String :=
  ["performance", "efficiency", "utilization", "availability",
   "mileage", "hours", "cost", "maintenance", "downtime",
   "fuel", "emissions", "reliability", "rating"]

/-- `FleetDataProcessor.identify_performance_metrics`: columns whose
lowercased name contains a metric keyword, in column order. -/
def identify_performance_metrics (cols : List (String × ColType)) : List String :=
  (cols.filter (fun c => metric_keywords.any (fun k => containsSub (toLowerStr c.1) k))).map (·.1)

/-- The set of keys of the mapping returned by
`FleetDataProcessor.calculate_summary_stats`: `overall` requires a non-empty
numeric restriction of the metric columns; `by_group` only requires a truthy
`group_by` present among the columns. -/
def calculate_summary_stats (cols : List (String × ColType)) (numRows : Nat)
    (group_by : Option String) : List String :=
  let metric := identify_performance_metrics cols
  if metric = [] then []
  else
    let overall :=
      if numRows > 0 && cols.any (fun c => metric.contains c.1 && c.2 == ColType.num) then
        ["overall"]
      else []
    let grouped :=
      match group_by with
      | some g => if g ≠ "" && cols.any (fun c => c.1 = g) then ["by_group"] else []
      | none => []
    overall ++ grouped

/-! ### Partitioned writing (`src/pipeline/writers.py`) -/

/-- Code-point lexicographic strict order on character lists, the order
Python uses on strings. -/
def lexLt : List Char → List Char → Bool
  | [], [] => false
  | [], _ :: _ => true
  | _ :: _, [] => false
  | a :: as, b :: bs => if a < b then true else if b < a then false else lexLt as bs

def strLeB (a b : String) : Bool := a == b || lexLt a.data b.data

/-- The grouping performed by `df.groupby([key])` inside
`PartitionedWriter.write_partitioned` for a single partition column: group
keys sorted, rows with a null key dropped, row order kept within a group. -/
def groupByKey {α : Type} (rows : List (Option String × α)) :
    List (String × List (Option String × α)) :=
  let keys := ((rows.filterMap Prod.fst).dedup).insertionSort (fun a b => strLeB a b = true)
  keys.map (fun k => (k, rows.filter (fun r => r.1 = some k)))

/-- Unfolded form of `clean_column_names`: name at position `k + i` of the
original list cleans to itself or to the `col_<index>` fallback. -/
def cleanNamesFrom (k : Nat) : List String → List String
  | [] => []
  | s :: t =>
    (if cleanNameStr s ≠ "" then cleanNameStr s else "col_" ++ toString k) ::
      cleanNamesFrom (k + 1) t

/-! ### Canonicalization lemmas and claim C9 -/

/-- Adjacent characters are never both underscores. -/
def NeAdjU (a b : Char) : Prop := a ≠ '_' ∨ b ≠ '_'

theorem toLower_toLower (c : Char) : c.toLower.toLower = c.toLower := by
  by_cases h : c.toNat ≥ 65 ∧ c.toNat ≤ 90
  · obtain ⟨h1, h2⟩ := h
    have hc : c = Char.ofNat c.toNat := (Char.ofNat_toNat c).symm
    rw [hc]
    generalize c.toNat = n at h1 h2 ⊢
    interval_cases n <;> decide
  · have h1 : c.toLower = c := by
      simp only [Char.toLower]
      rw [if_neg h]
    rw [h1, h1]

theorem word_not_ws {c : Char} (h : isWord c = true) : c.isWhitespace = false := by
  cases hw : c.isWhitespace
  · rfl
  · exfalso
    have hc : ((c = ' ' ∨ c = '\t') ∨ c = '\r') ∨ c = '\n' := by
      simpa [Char.isWhitespace] using hw
    rcases hc with ((rfl | rfl) | rfl) | rfl <;> exact absurd h (by decide)

theorem map_id_of_mem {f : Char → Char} :
    ∀ (l : List Char), (∀ c ∈ l, f c = c) → l.map f = l := by
  intro l h
  induction l with
  | nil => rfl
  | cons a t ih =>
    simp only [List.map_cons, h a (List.mem_cons_self a t)]
    rw [ih (fun c hc => h c (List.mem_cons_of_mem _ hc))]

theorem head?_dropWhile_false (p : Char → Bool) (l : List Char) {c : Char}
    (h : (l.dropWhile p).head? = some c) : p c = false := by
  have hm := List.head?_dropWhile_not p l
  rw [h] at hm
  exact hm

theorem mem_subWsAux {c : Char} :
    ∀ (b : Bool) (l : List Char), c ∈ subWsAux b l → c = '_' ∨ c ∈ l := by
  intro b l
  induction l generalizing b with
  | nil => simp [subWsAux]
  | cons a t ih =>
    intro h
    simp only [subWsAux] at h
    split at h
    · split at h
      · rcases ih _ h with h' | h'
        · exact .inl h'
        · exact .inr (.tail _ h')
      · rcases List.mem_cons.mp h with h' | h'
        · exact .inl h'
        · rcases ih _ h' with h'' | h''
          · exact .inl h''
          · exact .inr (.tail _ h'')
    · rcases List.mem_cons.mp h with h' | h'
      · subst h'; exact .inr (.head _)
      · rcases ih _ h' with h'' | h''
        · exact .inl h''
        · exact .inr (.tail _ h'')

theorem not_ws_of_mem_subWsAux {c : Char} :
    ∀ (b : Bool) (l : List Char), c ∈ subWsAux b l → c.isWhitespace = false := by
  intro b l
  induction l generalizing b with
  | nil => simp [subWsAux]
  | cons a t ih =>
    intro h
    simp only [subWsAux] at h
    split at h
    · rename_i hws
      split at h
      · exact ih _ h
      · rcases List.mem_cons.mp h with h' | h'
        · subst h'; decide
        · exact ih _ h'
    · rename_i hws
      rcases List.mem_cons.mp h with h' | h'
      · subst h'; exact Bool.not_eq_true _ ▸ Bool.of_not_eq_true hws
      · exact ih _ h'

theorem subWsAux_eq_self (b : Bool) (l : List Char)
    (h : ∀ c ∈ l, c.isWhitespace = false) : subWsAux b l = l := by
  induction l generalizing b with
  | nil => simp [subWsAux]
  | cons a t ih =>
    have ha := h a (List.mem_cons_self a t)
    simp only [subWsAux, ha]
    simp only [Bool.false_eq_true, if_false]
    rw [ih false (fun c hc => h c (List.mem_cons_of_mem _ hc))]

theorem mem_collapseUAux {c : Char} :
    ∀ (b : Bool) (l : List Char), c ∈ collapseUAux b l → c ∈ l := by
  intro b l
  induction l generalizing b with
  | nil => simp [collapseUAux]
  | cons a t ih =>
    intro h
    simp only [collapseUAux] at h
    split at h
    · rename_i ha
      split at h
      · exact .tail _ (ih _ h)
      · rcases List.mem_cons.mp h with h' | h'
        · subst h'
          have : a = '_' := by simpa using ha
          exact this ▸ .head _
        · exact .tail _ (ih _ h')
    · rcases List.mem_cons.mp h with h' | h'
      · subst h'; exact .head _
      · exact .tail _ (ih _ h')

theorem head?_collapseUAux_true {c : Char} :
    ∀ (l : List Char), (collapseUAux true l).head? = some c → c ≠ '_' := by
  intro l
  induction l with
  | nil => simp [collapseUAux]
  | cons a t ih =>
    intro h
    simp only [collapseUAux] at h
    split at h
    · exact ih h
    · rename_i ha
      simp only [List.head?_cons, Option.some.injEq] at h
      subst h
      simpa using ha

theorem chain'_collapseUAux : ∀ (b : Bool) (l : List Char),
    (collapseUAux b l).Chain' NeAdjU := by
  intro b l
  induction l generalizing b with
  | nil => simp [collapseUAux]
  | cons a t ih =>
    simp only [collapseUAux]
    split
    · split
      · exact ih true
      · refine List.chain'_cons'.mpr ⟨?_, ih true⟩
        intro y hy
        exact Or.inr (head?_collapseUAux_true t hy)
    · rename_i ha
      refine List.chain'_cons'.mpr ⟨?_, ih false⟩
      intro y hy
      exact Or.inl (by simpa using ha)

theorem collapseUAux_eq_self : ∀ (l : List Char) (b : Bool),
    l.Chain' NeAdjU → (b = true → ∀ c, l.head? = some c → c ≠ '_') →
    collapseUAux b l = l := by
  intro l
  induction l with
  | nil => intro b _ _; simp [collapseUAux]
  | cons a t ih =>
    intro b hch hb
    have hch' := List.chain'_cons'.mp hch
    by_cases ha : a = '_'
    · cases b with
      | true => exact absurd ha (hb rfl a (by simp))
      | false =>
        subst ha
        simp only [collapseUAux, beq_self_eq_true, if_true, Bool.false_eq_true, if_false]
        rw [ih true hch'.2 ?_]
        intro _ c hc
        have := hch'.1 c hc
        rcases this with h' | h'
        · exact absurd rfl h'
        · exact h'
    · have ha' : (a == '_') = false := by simpa using ha
      simp only [collapseUAux, ha', Bool.false_eq_true, if_false]
      rw [ih false hch'.2 (by simp)]

theorem mem_dropTrail {c : Char} (p : Char → Bool) :
    ∀ (l : List Char), c ∈ dropTrail p l → c ∈ l := by
  intro l
  induction l with
  | nil => simp [dropTrail]
  | cons a t ih =>
    intro h
    simp only [dropTrail] at h
    split at h
    · exact absurd h (List.not_mem_nil c)
    · rcases List.mem_cons.mp h with h' | h'
      · subst h'; exact .head _
      · exact .tail _ (ih h')

theorem head?_dropTrail {c : Char} (p : Char → Bool) :
    ∀ (l : List Char), (dropTrail p l).head? = some c → l.head? = some c := by
  intro l
  cases l with
  | nil => simp [dropTrail]
  | cons a t =>
    intro h
    simp only [dropTrail] at h
    split at h
    · simp at h
    · simpa using h

theorem getLast?_dropTrail {c : Char} (p : Char → Bool) :
    ∀ (l : List Char), (dropTrail p l).getLast? = some c → p c = false := by
  intro l
  induction l with
  | nil => simp [dropTrail]
  | cons a t ih =>
    intro h
    simp only [dropTrail] at h
    split at h
    · simp at h
    · rename_i hcond
      rcases hr : dropTrail p t with _ | ⟨x, xs⟩
      · rw [hr] at h hcond
        simp only [List.getLast?_singleton, Option.some.injEq] at h
        subst h
        simpa using hcond
      · rw [hr] at h
        rw [List.getLast?_cons_cons] at h
        exact ih (hr ▸ h)

theorem dropTrail_eq_self (p : Char → Bool) :
    ∀ (l : List Char), (∀ c, l.getLast? = some c → p c = false) →
    dropTrail p l = l := by
  intro l
  induction l with
  | nil => intro _; rfl
  | cons a t ih =>
    intro h
    have ht' : dropTrail p t = t := by
      apply ih
      intro c hc
      apply h
      cases t with
      | nil => simp at hc
      | cons x xs =>
        rw [List.getLast?_cons_cons]
        exact hc
    simp only [dropTrail]
    rw [ht']
    cases t with
    | nil =>
      have ha := h a (by simp)
      simp [ha]
    | cons x xs => simp

theorem chain'_dropTrail {R : Char → Char → Prop} (p : Char → Bool) :
    ∀ (l : List Char), l.Chain' R → (dropTrail p l).Chain' R := by
  intro l
  induction l with
  | nil => intro _; simp [dropTrail]
  | cons a t ih =>
    intro h
    have h' := List.chain'_cons'.mp h
    simp only [dropTrail]
    split
    · simp
    · refine List.chain'_cons'.mpr ⟨?_, ih h'.2⟩
      intro y hy
      exact h'.1 y (head?_dropTrail p t hy)

theorem mem_stripAll {c : Char} (p : Char → Bool) (l : List Char)
    (h : c ∈ stripAll p l) : c ∈ l :=
  (List.dropWhile_sublist p).subset (mem_dropTrail p _ h)

theorem head?_stripAll_false {c : Char} (p : Char → Bool) (l : List Char)
    (h : (stripAll p l).head? = some c) : p c = false :=
  head?_dropWhile_false p l (head?_dropTrail p _ h)

theorem getLast?_stripAll_false {c : Char} (p : Char → Bool) (l : List Char)
    (h : (stripAll p l).getLast? = some c) : p c = false :=
  getLast?_dropTrail p _ h

theorem stripAll_eq_self (p : Char → Bool) (l : List Char)
    (hh : ∀ c, l.head? = some c → p c = false)
    (hl : ∀ c, l.getLast? = some c → p c = false) : stripAll p l = l := by
  have hdw : l.dropWhile p = l := by
    cases l with
    | nil => rfl
    | cons a t => exact List.dropWhile_cons_of_neg (by simp [hh a (by simp)])
  unfold stripAll
  rw [hdw]
  exact dropTrail_eq_self p l hl

theorem chain'_stripAll {R : Char → Char → Prop} (p : Char → Bool)
    (l : List Char) (h : l.Chain' R) : (stripAll p l).Chain' R :=
  chain'_dropTrail p _ (h.suffix (List.dropWhile_suffix p))

theorem mem_cleanName_word {c : Char} (l : List Char) (h : c ∈ cleanName l) :
    isWord c = true := by
  unfold cleanName collapseU at h
  have h1 := mem_collapseUAux _ _ (mem_stripAll _ _ h)
  exact (List.mem_filter.mp h1).2

theorem mem_cleanName_lower {c : Char} (l : List Char) (h : c ∈ cleanName l) :
    c.toLower = c := by
  unfold cleanName collapseU subWs at h
  have h1 := mem_collapseUAux _ _ (mem_stripAll _ _ h)
  have h2 := (List.mem_filter.mp h1).1
  rcases mem_subWsAux _ _ h2 with rfl | h3
  · decide
  · have h4 := mem_stripAll _ _ h3
    rcases List.mem_map.mp h4 with ⟨c', _, rfl⟩
    exact toLower_toLower c'

theorem chain'_cleanName (l : List Char) : (cleanName l).Chain' NeAdjU := by
  unfold cleanName collapseU
  exact chain'_stripAll _ _ (chain'_collapseUAux false _)

theorem head?_cleanName {c : Char} (l : List Char)
    (h : (cleanName l).head? = some c) : (c == '_') = false := by
  unfold cleanName at h
  exact head?_stripAll_false (fun x => x == '_') _ h

theorem getLast?_cleanName {c : Char} (l : List Char)
    (h : (cleanName l).getLast? = some c) : (c == '_') = false := by
  unfold cleanName at h
  exact getLast?_stripAll_false (fun x => x == '_') _ h

theorem cleanName_idem (l : List Char) : cleanName (cleanName l) = cleanName l := by
  have hword : ∀ c ∈ cleanName l, isWord c = true :=
    fun c hc => mem_cleanName_word l hc
  have h1 : (cleanName l).map Char.toLower = cleanName l :=
    map_id_of_mem _ (fun c hc => mem_cleanName_lower l hc)
  have h2 : stripAll Char.isWhitespace (cleanName l) = cleanName l := by
    apply stripAll_eq_self
    · intro c hc
      exact word_not_ws (hword c (List.mem_of_mem_head? (Option.mem_def.mpr hc)))
    · intro c hc
      exact word_not_ws (hword c (List.mem_of_mem_getLast? (Option.mem_def.mpr hc)))
  have h3 : subWs (cleanName l) = cleanName l :=
    subWsAux_eq_self false _ (fun c hc => word_not_ws (hword c hc))
  have h4 : (cleanName l).filter isWord = cleanName l :=
    List.filter_eq_self.mpr hword
  have h5 : collapseU (cleanName l) = cleanName l :=
    collapseUAux_eq_self _ false (chain'_cleanName l) (by simp)
  have h6 : stripAll (· == '_') (cleanName l) = cleanName l := by
    apply stripAll_eq_self
    · intro c hc
      exact head?_cleanName l hc
    · intro c hc
      exact getLast?_cleanName l hc
  show stripAll (· == '_')
      (collapseU ((subWs (stripAll Char.isWhitespace
        ((cleanName l).map Char.toLower))).filter isWord)) = cleanName l
  rw [h1, h2, h3, h4, h5, h6]

/-- Claim C9: column-name canonicalization is idempotent — applying the
cleaning of `DataProcessor.clean_column_names` twice to any column name
string yields the same result as applying it once. -/
theorem claim_C9_cleanName_idempotent (s : String) :
    cleanNameStr (cleanNameStr s) = cleanNameStr s :=
  congrArg String.mk (cleanName_idem s.data)

/-! ### Claims C1-C5, C8 -/

/-- Claim C1, refuted by the code as wired: `process_single_file` normalizes
each decoded sheet with `process_dataframe`, which never injects
`source_file`, `source_sheet`, `source_path` or `ingestion_timestamp`
(injection lives only in the never-called `read_sheet_with_metadata`); on
the sheet `{a: ["1"]}` of file `report.xlsx` the normalized columns are
exactly `a, fleet_number` and the `required_columns` rule fails, reporting
`source_file` and `ingestion_timestamp` missing. -/
theorem claim_C1_pipeline_lacks_metadata_columns :
    colNames (process_dataframe [("a", [.str "1"])] "report.xlsx") = ["a", "fleet_number"] ∧
    has_required_columns (process_dataframe [("a", [.str "1"])] "report.xlsx") =
      (false, ["source_file", "ingestion_timestamp"]) := by
  constructor <;> decide

/-- Claim C2 counterexample: with an empty history `get_validation_summary`
returns the dictionary `{total_validations: 0}` alone — there is no
`pass_rate` key, contradicting the claimed `pass_rate = 0`. -/
theorem claim_C2_counterexample_empty_history :
    (get_validation_summary []).lookup "pass_rate" = none ∧
    get_validation_summary [] = [("total_validations", 0)] := by
  constructor <;> decide

/-- Claim C2 amended: for a non-empty history of `n` results with `p`
passes, the summary maps total_validations to `n`, passed to `p`, failed to
`n - p` and pass_rate to `p / n`; the empty-history case is covered by the
counterexample theorem. -/
theorem claim_C2_validation_summary (history : List Bool) (h : history ≠ []) :
    (get_validation_summary history).lookup "total_validations" =
      some (history.length : ℚ) ∧
    (get_validation_summary history).lookup "passed" = some (history.countP id : ℚ) ∧
    (get_validation_summary history).lookup "failed" =
      some ((history.length - history.countP id : Nat) : ℚ) ∧
    (get_validation_summary history).lookup "pass_rate" =
      some ((history.countP id : ℚ) / (history.length : ℚ)) := by
  have hl : 0 < history.length := List.length_pos.mpr h
  unfold get_validation_summary
  rw [if_neg h]
  simp [List.lookup, hl]

theorem claim_C2_validation_summary_witness :
    (get_validation_summary [true, true, false]).lookup "pass_rate" =
      some ((2 : ℚ) / 3) := by
  have h := (claim_C2_validation_summary [true, true, false] (by decide)).2.2.2
  rw [h]
  norm_num [List.countP_cons, List.countP_nil]

/-- Claim C3 counterexample: on fleet numbers `["5", "1000", "abc"]` the
`valid_fleet_numbers` rule does fail, but the violation count embedded in
its message is 1 (the single non-numeric row), not the claimed 2. -/
theorem claim_C3_counterexample :
    valid_fleet_numbers [("fleet_number", [.str "5", .str "1000", .str "abc"])] =
      (false, .invalidFormat 1) ∧
    violationCount
      (valid_fleet_numbers [("fleet_number", [.str "5", .str "1000", .str "abc"])]).2 ≠ 2 := by
  constructor <;> decide

/-- Claim C3 amended: whenever any non-null `fleet_number` value fails the
numeric parse, the rule fails reporting exactly the count of non-numeric
rows — the out-of-range check is never reached, so an out-of-range value
such as 1000 is not counted alongside a non-numeric one. -/
theorem claim_C3_fleet_rule_short_circuit (col : List Val)
    (hne : col.filter (fun v => !v.isNull) ≠ [])
    (hinv : ((col.filter (fun v => !v.isNull)).map fleetCellNum?).countP (·.isNone) > 0) :
    valid_fleet_numbers [("fleet_number", col)] =
      (false, .invalidFormat
        (((col.filter (fun v => !v.isNull)).map fleetCellNum?).countP (·.isNone))) := by
  have hcol : getCol? [("fleet_number", col)] "fleet_number" = some col := by
    simp [getCol?]
  unfold valid_fleet_numbers
  rw [hcol]
  dsimp only
  rw [if_neg hne, if_pos hinv]

theorem claim_C3_fleet_rule_short_circuit_witness :
    valid_fleet_numbers [("fleet_number", [.str "5", .str "1000", .str "abc"])] =
      (false, .invalidFormat
        ((([Val.str "5", Val.str "1000", Val.str "abc"].filter
            (fun v => !v.isNull)).map fleetCellNum?).countP (·.isNone))) :=
  claim_C3_fleet_rule_short_circuit [.str "5", .str "1000", .str "abc"]
    (by decide) (by decide)

/-- Claim C4 counterexample: a table with a non-numeric metric column
`cost` and a `fleet_number` column, summarized with `group_by =
fleet_number`, yields the non-empty mapping `{by_group}` even though no
numeric metric column exists. -/
theorem claim_C4_counterexample :
    calculate_summary_stats [("cost", .obj), ("fleet_number", .obj)] 1
      (some "fleet_number") = ["by_group"] ∧
    calculate_summary_stats [("cost", .obj), ("fleet_number", .obj)] 1
      (some "fleet_number") ≠ [] := by
  constructor <;> decide

/-- Claim C4 amended: only the `overall` entry is restricted to numeric
metric columns — without a numeric metric column no `overall` entry is
produced, and with no metric column at all the mapping is empty; but a
truthy `group_by` present among the columns still produces `by_group`, so
the result need not be empty. -/
theorem claim_C4_no_numeric_metric_keys (cols : List (String × ColType)) (numRows : Nat)
    (group_by : Option String)
    (h : cols.any (fun c => (identify_performance_metrics cols).contains c.1 &&
        c.2 == ColType.num) = false) :
    "overall" ∉ calculate_summary_stats cols numRows group_by ∧
    (identify_performance_metrics cols = [] →
      calculate_summary_stats cols numRows group_by = []) := by
  unfold calculate_summary_stats
  by_cases hm : identify_performance_metrics cols = []
  · rw [if_pos hm]
    exact ⟨List.not_mem_nil _, fun _ => rfl⟩
  · rw [if_neg hm]
    refine ⟨?_, fun hc => absurd hc hm⟩
    dsimp only
    rw [h]
    simp only [Bool.and_false, Bool.false_eq_true, if_false, List.nil_append]
    cases group_by with
    | none => simp
    | some g => split <;> simp

theorem claim_C4_no_numeric_metric_keys_witness :
    "overall" ∉ calculate_summary_stats [("cost", ColType.obj), ("fleet_number", ColType.obj)]
      1 (some "fleet_number") ∧
    (identify_performance_metrics [("cost", ColType.obj), ("fleet_number", ColType.obj)] = [] →
      calculate_summary_stats [("cost", ColType.obj), ("fleet_number", ColType.obj)] 1
        (some "fleet_number") = []) :=
  claim_C4_no_numeric_metric_keys [("cost", .obj), ("fleet_number", .obj)] 1
    (some "fleet_number") (by decide)

/-- Claim C5 counterexample: the two distinct column names `a b` and `a_b`
both canonicalize to `a_b`, so the cleaned name list is not duplicate-free —
uniqueness is not guaranteed. -/
theorem claim_C5_counterexample :
    clean_column_names ["a b", "a_b"] = ["a_b", "a_b"] ∧
    ¬ (clean_column_names ["a b", "a_b"]).Nodup := by
  constructor <;> decide

theorem clean_column_names_foldl (names : List String) :
    ∀ acc : List String,
      names.foldl
        (fun acc col =>
          let c := cleanNameStr col
          acc ++ [if c ≠ "" then c else "col_" ++ toString acc.length]) acc =
      acc ++ cleanNamesFrom acc.length names := by
  induction names with
  | nil => intro acc; simp [cleanNamesFrom]
  | cons s t ih =>
    intro acc
    simp only [List.foldl_cons, cleanNamesFrom]
    rw [ih]
    simp [List.append_assoc]

theorem cleanNamesFrom_length : ∀ (names : List String) (k : Nat),
    (cleanNamesFrom k names).length = names.length := by
  intro names
  induction names with
  | nil => intro k; rfl
  | cons s t ih => intro k; simp [cleanNamesFrom, ih]

theorem cleanNamesFrom_getD : ∀ (names : List String) (k i : Nat), i < names.length →
    (cleanNamesFrom k names).getD i "" =
      (if cleanNameStr (names.getD i "") ≠ "" then cleanNameStr (names.getD i "")
       else "col_" ++ toString (k + i)) := by
  intro names
  induction names with
  | nil => intro k i h; exact absurd h (by simp)
  | cons s t ih =>
    intro k i h
    cases i with
    | zero => simp [cleanNamesFrom]
    | succ n =>
      have hn : n < t.length := by simpa using h
      simp only [cleanNamesFrom, List.getD_cons_succ]
      rw [ih (k + 1) n hn]
      have harith : k + 1 + n = k + (n + 1) := by omega
      rw [harith]

/-- Claim C5 amended: `clean_column_names` maps each name positionally — the
output has the same length and the entry at index `i` is exactly the
canonicalization of the input at `i`, with `col_<i>` substituted only when
that canonicalization is empty.  No other deduplication happens, so
distinct originals with equal canonical forms collide (counterexample
theorem). -/
theorem claim_C5_clean_column_names_positional (names : List String) (i : Nat)
    (h : i < names.length) :
    (clean_column_names names).length = names.length ∧
    (clean_column_names names).getD i "" =
      (if cleanNameStr (names.getD i "") ≠ "" then cleanNameStr (names.getD i "")
       else "col_" ++ toString i) := by
  have hfold : clean_column_names names = cleanNamesFrom 0 names := by
    unfold clean_column_names
    simpa using clean_column_names_foldl names []
  constructor
  · rw [hfold, cleanNamesFrom_length]
  · rw [hfold, cleanNamesFrom_getD names 0 i h]
    simp

theorem claim_C5_clean_column_names_positional_witness :
    (clean_column_names ["a b", "a_b"]).length = (["a b", "a_b"] : List String).length ∧
    (clean_column_names ["a b", "a_b"]).getD 0 "" =
      (if cleanNameStr ((["a b", "a_b"] : List String).getD 0 "") ≠ "" then
        cleanNameStr ((["a b", "a_b"] : List String).getD 0 "")
       else "col_" ++ toString 0) :=
  claim_C5_clean_column_names_positional ["a b", "a_b"] 0 (by decide)

/-- Claim C8: partitioning rows whose `fleet_number` keys are
`"1", "1", "2"` yields exactly the two groups keyed `"1"` (2 rows) and
`"2"` (1 row), and the concatenation of the groups is a permutation of the
input rows. -/
theorem claim_C8_partition {α : Type} (p1 p2 p3 : α) :
    groupByKey [(some "1", p1), (some "1", p2), (some "2", p3)] =
      [("1", [(some "1", p1), (some "1", p2)]), ("2", [(some "2", p3)])] ∧
    (groupByKey [(some "1", p1), (some "1", p2), (some "2", p3)]).map
      (fun g => g.2.length) = [2, 1] ∧
    ((groupByKey [(some "1", p1), (some "1", p2), (some "2", p3)]).flatMap
      (fun g => g.2)).Perm [(some "1", p1), (some "1", p2), (some "2", p3)] :=
  ⟨rfl, rfl, List.Perm.refl _⟩

/-! ### Claim C6: rule engine -/

/-- Claim C6: `validate_dataframe` records one entry per registered rule in
registration order (so an erroring rule never aborts the remaining ones),
an exception inside a rule is recorded as a failed rule whose message
starts with `Rule execution failed`, and the overall `passed` flag is the
conjunction of all rule outcomes. -/
theorem claim_C6_validate_dataframe
    (rules : List (String × (DF → Except String (Bool × String)))) (df : DF) :
    (validate_dataframe rules df).1 = rules.map (fun r => (r.1, runRule r.2 df)) ∧
    (validate_dataframe rules df).2 = (rules.map (fun r => (runRule r.2 df).1)).all id ∧
    ∀ f e, f df = Except.error e →
      runRule f df = (false, "Rule execution failed: " ++ e) ∧
      ∃ t, (runRule f df).2 = "Rule execution failed" ++ t := by
  refine ⟨?_, ?_, ?_⟩
  · induction rules with
    | nil => rfl
    | cons r rest ih =>
      obtain ⟨n, f⟩ := r
      simp [validate_dataframe, ih]
  · induction rules with
    | nil => rfl
    | cons r rest ih =>
      obtain ⟨n, f⟩ := r
      simp [validate_dataframe, ih]
  · intro f e hf
    have hr : runRule f df = (false, "Rule execution failed: " ++ e) := by
      unfold runRule
      rw [hf]
    refine ⟨hr, ": " ++ e, ?_⟩
    rw [hr]
    have hsplit : ("Rule execution failed: " : String) = "Rule execution failed" ++ ": " := by
      decide
    rw [hsplit, String.append_assoc]

theorem claim_C6_validate_dataframe_witness :
    (validate_dataframe
        [("ok", fun _ => Except.ok (true, "fine")),
         ("boom", fun _ => Except.error "x")] []).1 =
      [("ok", fun _ => Except.ok (true, "fine")),
        ("boom", fun _ => Except.error "x")].map
        (fun r => (r.1, runRule r.2 [])) ∧
    (validate_dataframe
        [("ok", fun _ => Except.ok (true, "fine")),
         ("boom", fun _ => Except.error "x")] []).2 =
      ([("ok", fun _ => Except.ok (true, "fine")),
        ("boom", fun _ => Except.error "x")].map
        (fun r => (runRule r.2 []).1)).all id ∧
    ∀ f e, f [] = Except.error e →
      runRule f [] = (false, "Rule execution failed: " ++ e) ∧
      ∃ t, (runRule f []).2 = "Rule execution failed" ++ t :=
  claim_C6_validate_dataframe
    [("ok", fun _ => Except.ok (true, "fine")), ("boom", fun _ => Except.error "x")] []

/-! ### Claim C7: key derivation -/

theorem any_name_eq_false_of_not_mem {df : DF} {name : String}
    (h : name ∉ colNames df) : df.any (fun c => c.1 = name) = false := by
  simp only [List.any_eq_false, decide_eq_true_eq]
  intro c hc hceq
  exact h (hceq ▸ List.mem_map_of_mem _ hc)

theorem setCol_of_not_mem {df : DF} {name : String} (vs : List Val)
    (h : name ∉ colNames df) : setCol df name vs = df ++ [(name, vs)] := by
  unfold setCol
  rw [any_name_eq_false_of_not_mem h]
  simp

theorem find?_name_eq_none {df : DF} {name : String} (h : name ∉ colNames df) :
    df.find? (fun c => c.1 = name) = none := by
  rw [List.find?_eq_none]
  intro c hc
  simp only [decide_eq_true_eq]
  intro hceq
  exact h (hceq ▸ List.mem_map_of_mem _ hc)

theorem getCol?_append_right {df : DF} {name : String} (vs : List Val)
    (h : name ∉ colNames df) : getCol? (df ++ [(name, vs)]) name = some vs := by
  unfold getCol?
  rw [List.find?_append, find?_name_eq_none h]
  simp [List.find?]

theorem getCol?_append_of_ne {df : DF} {name n' : String} (vs : List Val)
    (h : n' ≠ name) : getCol? (df ++ [(n', vs)]) name = getCol? df name := by
  unfold getCol?
  rw [List.find?_append]
  have hnil : List.find? (fun c => c.1 = name) [(n', vs)] = none := by
    simp [List.find?, h]
  rw [hnil]
  cases df.find? (fun c => c.1 = name) <;> rfl

theorem colNames_append_single (df : DF) (x : String × List Val) :
    colNames (df ++ [x]) = colNames df ++ [x.1] := by
  simp [colNames]

theorem not_mem_colNames_append {df : DF} {x : String × List Val} {name : String}
    (h : name ∉ colNames df) (hx : name ≠ x.1) : name ∉ colNames (df ++ [x]) := by
  rw [colNames_append_single]
  simp only [List.mem_append, List.mem_singleton]
  rintro (hmem | hmem)
  · exact h hmem
  · exact hx hmem

/-- Claim C7: `extract_fleet_info` sets every row's `fleet_number` to the
digits captured by the case-insensitive `fleet\s*(\d+)` search when it
matches and to null otherwise; independently, `bus_range_start` and
`bus_range_end` are set to the groups of `(\d{4})-(\d{4})` for every row
when that search matches, and are not added at all when it does not. -/
theorem claim_C7_extract_fleet_info (df : DF) (src : String)
    (h1 : "fleet_number" ∉ colNames df)
    (h2 : "bus_range_start" ∉ colNames df)
    (h3 : "bus_range_end" ∉ colNames df) :
    (∀ d, fleetSearch (toLowerStr src).data = some d →
      getCol? (extract_fleet_info df src) "fleet_number" =
        some (List.replicate (nrows df) (.str ⟨d⟩))) ∧
    (fleetSearch (toLowerStr src).data = none →
      getCol? (extract_fleet_info df src) "fleet_number" =
        some (List.replicate (nrows df) .null)) ∧
    (∀ a b, busSearch src.data = some (a, b) →
      getCol? (extract_fleet_info df src) "bus_range_start" =
        some (List.replicate (nrows df) (.str ⟨a⟩)) ∧
      getCol? (extract_fleet_info df src) "bus_range_end" =
        some (List.replicate (nrows df) (.str ⟨b⟩))) ∧
    (busSearch src.data = none →
      colNames (extract_fleet_info df src) = colNames df ++ ["fleet_number"]) := by
  have hbs : ∀ vs : List Val,
      "bus_range_start" ∉ colNames (df ++ [("fleet_number", vs)]) :=
    fun vs => not_mem_colNames_append h2
      (show ("bus_range_start" : String) ≠ "fleet_number" by decide)
  have hbe : ∀ vs vs' : List Val,
      "bus_range_end" ∉
        colNames ((df ++ [("fleet_number", vs)]) ++ [("bus_range_start", vs')]) :=
    fun vs vs' =>
      not_mem_colNames_append
        (not_mem_colNames_append h3
          (show ("bus_range_end" : String) ≠ "fleet_number" by decide))
        (show ("bus_range_end" : String) ≠ "bus_range_start" by decide)
  refine ⟨?_, ?_, ?_, ?_⟩
  · intro d hd
    cases hb : busSearch src.data with
    | none =>
      simp only [extract_fleet_info, hd, hb]
      rw [setCol_of_not_mem _ h1]
      exact getCol?_append_right _ h1
    | some ab =>
      obtain ⟨a, b⟩ := ab
      simp only [extract_fleet_info, hd, hb]
      rw [setCol_of_not_mem _ h1, setCol_of_not_mem _ (hbs _), setCol_of_not_mem _ (hbe _ _)]
      rw [getCol?_append_of_ne _ (by decide), getCol?_append_of_ne _ (by decide)]
      exact getCol?_append_right _ h1
  · intro hd
    cases hb : busSearch src.data with
    | none =>
      simp only [extract_fleet_info, hd, hb]
      rw [setCol_of_not_mem _ h1]
      exact getCol?_append_right _ h1
    | some ab =>
      obtain ⟨a, b⟩ := ab
      simp only [extract_fleet_info, hd, hb]
      rw [setCol_of_not_mem _ h1, setCol_of_not_mem _ (hbs _), setCol_of_not_mem _ (hbe _ _)]
      rw [getCol?_append_of_ne _ (by decide), getCol?_append_of_ne _ (by decide)]
      exact getCol?_append_right _ h1
  · intro a b hb
    cases hd : fleetSearch (toLowerStr src).data with
    | some d =>
      simp only [extract_fleet_info, hd, hb]
      rw [setCol_of_not_mem _ h1, setCol_of_not_mem _ (hbs _), setCol_of_not_mem _ (hbe _ _)]
      constructor
      · rw [getCol?_append_of_ne _ (by decide)]
        exact getCol?_append_right _ (hbs _)
      · exact getCol?_append_right _ (hbe _ _)
    | none =>
      simp only [extract_fleet_info, hd, hb]
      rw [setCol_of_not_mem _ h1, setCol_of_not_mem _ (hbs _), setCol_of_not_mem _ (hbe _ _)]
      constructor
      · rw [getCol?_append_of_ne _ (by decide)]
        exact getCol?_append_right _ (hbs _)
      · exact getCol?_append_right _ (hbe _ _)
  · intro hb
    cases hd : fleetSearch (toLowerStr src).data with
    | some d =>
      simp only [extract_fleet_info, hd, hb]
      rw [setCol_of_not_mem _ h1, colNames_append_single]
    | none =>
      simp only [extract_fleet_info, hd, hb]
      rw [setCol_of_not_mem _ h1, colNames_append_single]

theorem claim_C7_extract_fleet_info_witness :
    getCol? (extract_fleet_info [("a", [.str "x"])] "Fleet 12 - data.xlsx") "fleet_number" =
      some (List.replicate (nrows [("a", [Val.str "x"])]) (.str ⟨['1', '2']⟩)) ∧
    getCol? (extract_fleet_info [("a", [.str "x"])] "report.xlsx") "fleet_number" =
      some (List.replicate (nrows [("a", [Val.str "x"])]) .null) ∧
    (getCol? (extract_fleet_info [("a", [.str "x"])] "Fleet3_1000-1050.xlsx")
        "bus_range_start" =
      some (List.replicate (nrows [("a", [Val.str "x"])])
        (.str ⟨['1', '0', '0', '0']⟩)) ∧
    getCol? (extract_fleet_info [("a", [.str "x"])] "Fleet3_1000-1050.xlsx")
        "bus_range_end" =
      some (List.replicate (nrows [("a", [Val.str "x"])])
        (.str ⟨['1', '0', '5', '0']⟩))) ∧
    colNames (extract_fleet_info [("a", [.str "x"])] "report.xlsx") =
      colNames [("a", [Val.str "x"])] ++ ["fleet_number"] :=
  ⟨(claim_C7_extract_fleet_info [("a", [.str "x"])] "Fleet 12 - data.xlsx"
      (by decide) (by decide) (by decide)).1 ['1', '2'] (by decide),
   (claim_C7_extract_fleet_info [("a", [.str "x"])] "report.xlsx"
      (by decide) (by decide) (by decide)).2.1 (by decide),
   (claim_C7_extract_fleet_info [("a", [.str "x"])] "Fleet3_1000-1050.xlsx"
      (by decide) (by decide) (by decide)).2.2.1
      ['1', '0', '0', '0'] ['1', '0', '5', '0'] (by decide),
   (claim_C7_extract_fleet_info [("a", [.str "x"])] "report.xlsx"
      (by decide) (by decide) (by decide)).2.2.2 (by decide)⟩

/-! ### Claim C10: null partition keys -/

theorem sum_ite_single (v : Option String) :
    ∀ K : List String, K.Nodup → (∀ k, v = some k → k ∈ K) →
    (K.map (fun k => if v = some k then 1 else 0)).sum =
      if v.isSome then 1 else 0 := by
  intro K
  induction K with
  | nil =>
    intro _ hcl
    cases v with
    | none => simp
    | some k => exact absurd (hcl k rfl) (List.not_mem_nil k)
  | cons k0 K ih =>
    intro hK hcl
    rcases List.nodup_cons.mp hK with ⟨hk0, hK'⟩
    cases v with
    | none => simp
    | some k =>
      by_cases hk : k = k0
      · subst hk
        simp only [List.map_cons, List.sum_cons, if_pos rfl]
        have hz : (K.map (fun k' => if some k = some k' then 1 else 0)).sum = 0 := by
          apply List.sum_eq_zero
          intro x hx
          rcases List.mem_map.mp hx with ⟨k', hk', rfl⟩
          rw [if_neg]
          intro hcon
          exact hk0 ((Option.some.inj hcon) ▸ hk')
        rw [hz]
        simp
      · simp only [List.map_cons, List.sum_cons]
        rw [if_neg (fun hcon => hk (Option.some.inj hcon))]
        have hclK : ∀ k', some k = some k' → k' ∈ K := by
          intro k' hk'
          have hkk : k = k' := Option.some.inj hk'
          rcases List.mem_cons.mp (hcl k' hk') with hmem | hmem
          · exact absurd (hkk ▸ hmem) hk
          · exact hmem
        rw [ih hK' hclK]
        simp

theorem sum_group_sizes {α : Type} (K : List String) (hK : K.Nodup) :
    ∀ rows : List (Option String × α),
    (∀ r ∈ rows, ∀ k, r.1 = some k → k ∈ K) →
    (K.map (fun k => (rows.filter (fun r => r.1 = some k)).length)).sum =
      rows.countP (fun r => r.1.isSome) := by
  intro rows
  induction rows with
  | nil => intro _; simp
  | cons r t ih =>
    intro hcl
    have ht := fun r' h => hcl r' (List.mem_cons_of_mem _ h)
    have hr := fun k => hcl r (List.mem_cons_self _ _) k
    have hsplit : ∀ k : String,
        ((r :: t).filter (fun r' => r'.1 = some k)).length =
          (if r.1 = some k then 1 else 0) +
            (t.filter (fun r' => r'.1 = some k)).length := by
      intro k
      rw [List.filter_cons]
      by_cases hc : r.1 = some k
      · rw [if_pos (by simpa using hc)]
        simp [hc, Nat.add_comm]
      · rw [if_neg (by simpa using hc)]
        simp [hc]
    have hmap : K.map (fun k => ((r :: t).filter (fun r' => r'.1 = some k)).length) =
        K.map (fun k => (if r.1 = some k then 1 else 0) +
          (t.filter (fun r' => r'.1 = some k)).length) :=
      List.map_congr_left (fun k _ => hsplit k)
    rw [hmap, List.sum_map_add, sum_ite_single r.1 K hK hr, List.countP_cons, ih ht]
    exact Nat.add_comm _ _

/-- Claim C10: the `groupby` in `write_partitioned` drops rows whose
partition key is null — every emitted partition holds only rows with a
non-null key, the partitions together hold exactly the rows with a non-null
key, and whenever the key column contains a null the partitions cover
strictly fewer rows than the input. -/
theorem claim_C10_null_keys_unpartitioned {α : Type}
    (rows : List (Option String × α)) :
    (∀ g ∈ groupByKey rows, ∀ r ∈ g.2, r.1 ≠ none) ∧
    ((groupByKey rows).map (fun g => g.2.length)).sum =
      rows.countP (fun r => r.1.isSome) ∧
    ((∃ r ∈ rows, r.1 = none) →
      ((groupByKey rows).map (fun g => g.2.length)).sum < rows.length) := by
  have hperm := List.perm_insertionSort (fun a b => strLeB a b = true)
    ((rows.filterMap Prod.fst).dedup)
  have hK : (((rows.filterMap Prod.fst).dedup).insertionSort
      (fun a b => strLeB a b = true)).Nodup :=
    hperm.nodup_iff.mpr (List.nodup_dedup _)
  have hcl : ∀ r ∈ rows, ∀ k, r.1 = some k →
      k ∈ ((rows.filterMap Prod.fst).dedup).insertionSort
        (fun a b => strLeB a b = true) := by
    intro r hr k hk
    exact hperm.mem_iff.mpr (List.mem_dedup.mpr (List.mem_filterMap.mpr ⟨r, hr, hk⟩))
  have hgrp : groupByKey rows =
      (((rows.filterMap Prod.fst).dedup).insertionSort
        (fun a b => strLeB a b = true)).map
        (fun k => (k, rows.filter (fun r => r.1 = some k))) := rfl
  have hsum : ((groupByKey rows).map (fun g => g.2.length)).sum =
      rows.countP (fun r => r.1.isSome) := by
    rw [hgrp, List.map_map]
    exact sum_group_sizes _ hK rows hcl
  refine ⟨?_, hsum, ?_⟩
  · intro g hg r hr
    rw [hgrp] at hg
    rcases List.mem_map.mp hg with ⟨k, _, rfl⟩
    have hmem := (List.mem_filter.mp hr).2
    simp only [decide_eq_true_eq] at hmem
    rw [hmem]
    simp
  · intro hex
    rw [hsum]
    rcases hex with ⟨r, hr, hnone⟩
    apply Nat.lt_of_le_of_ne (List.countP_le_length _)
    intro he
    have hall := List.countP_eq_length.mp he r hr
    rw [hnone] at hall
    simp at hall

theorem claim_C10_null_keys_unpartitioned_witness :
    (∀ g ∈ groupByKey [((none : Option String), 0), (some "1", 1)],
      ∀ r ∈ g.2, r.1 ≠ none) ∧
    ((groupByKey [((none : Option String), 0), (some "1", 1)]).map
      (fun g => g.2.length)).sum =
      [((none : Option String), 0), (some "1", 1)].countP (fun r => r.1.isSome) ∧
    ((∃ r ∈ [((none : Option String), 0), (some "1", 1)], r.1 = none) →
      ((groupByKey [((none : Option String), 0), (some "1", 1)]).map
        (fun g => g.2.length)).sum <
        [((none : Option String), 0), (some "1", 1)].length) :=
  claim_C10_null_keys_unpartitioned [((none : Option String), 0), (some "1", 1)]

end Pipeline
